import Mathlib

/-!
Verification of the RWR (reward-weighted regression) finetuning agent
(`agent/finetune/train_rwr_diffusion_agent.py`, class `TrainRWRDiffusionAgent`).

We shallowly embed the components of the training loop: the episode
segmenter (lines 125-132), the return computer (lines 150-163), the reward
weighter (lines 203-216), the minibatch loop (lines 221-234), the rollout
collection step (lines 112-119), and the orchestrator's per-iteration
control flow (mode selection, reset decision, update gate, logging).
Numeric buffers are modelled over `ℚ` where the code does exact index
arithmetic and over `ℝ` where it applies `exp`/`sqrt`.
-/

namespace RWR

/-! ### Episode segmenter (lines 125-132) -/

/-- Model of `np.where(firsts_trajs[:, env_ind] == 1)[0]`: indices of the boundary
column whose marker equals 1.  A column is modelled as a list of Booleans
(`true` = marker 1). -/
def env_steps (col : List Bool) : List Nat :=
  (List.range col.length).filter (fun i => col.getD i false)

/-- The consecutive pairs `(xs[i], xs[i+1])` traversed by
`for i in range(len(env_steps) - 1)`. -/
def consecPairs : List Nat → List (Nat × Nat)
  | [] => []
  | [_] => []
  | a :: b :: rest => (a, b) :: consecPairs (b :: rest)

/-- Lines 128-132 for a single environment column: for each consecutive
marker pair `(start, end)`, if `end - start > 1`, emit `(env, start, end-1)`. -/
def segmentsOfCol (env : Nat) (col : List Bool) : List (Nat × Nat × Nat) :=
  (consecPairs (env_steps col)).filterMap
    (fun p => if p.2 - p.1 > 1 then some (env, p.1, p.2 - 1) else none)

/-- Column `env` of the time-major boundary matrix `firsts_trajs`. -/
def colOf (firsts_trajs : List (List Bool)) (env : Nat) : List Bool :=
  firsts_trajs.map (fun row => row.getD env false)

/-- Lines 125-132: the full segmenter, looping `env_ind in range(n_envs)`
and accumulating `episodes_start_end`. -/
def episodes_start_end (firsts_trajs : List (List Bool)) (n_envs : Nat) :
    List (Nat × Nat × Nat) :=
  (List.range n_envs).flatMap (fun e => segmentsOfCol e (colOf firsts_trajs e))

theorem mem_env_steps {col : List Bool} {i : Nat} :
    i ∈ env_steps col ↔ i < col.length ∧ col.getD i false = true := by
  simp [env_steps, List.mem_filter, List.mem_range]

theorem env_steps_sorted (col : List Bool) :
    (env_steps col).Sorted (· < ·) :=
  (List.pairwise_lt_range _).filter _

/-- On a strictly sorted list, the consecutive pairs are exactly the pairs of
members with no member strictly between them. -/
theorem consecPairs_mem_iff :
    ∀ {l : List Nat}, l.Sorted (· < ·) → ∀ a b : Nat,
      ((a, b) ∈ consecPairs l ↔
        a ∈ l ∧ b ∈ l ∧ a < b ∧ ∀ c ∈ l, ¬(a < c ∧ c < b))
  | [], _, a, b => by simp [consecPairs]
  | [x], _, a, b => by
      simp only [consecPairs, List.not_mem_nil, List.mem_singleton, false_iff]
      rintro ⟨rfl, rfl, hab, -⟩
      exact absurd hab (lt_irrefl _)
  | x :: y :: rest, hs, a, b => by
      have hxy : x < y := List.rel_of_sorted_cons hs y (List.mem_cons_self y rest)
      have hs' : (y :: rest).Sorted (· < ·) := hs.of_cons
      have ih := consecPairs_mem_iff hs' a b
      constructor
      · intro h
        rcases List.mem_cons.mp h with heq | htail
        · obtain ⟨rfl, rfl⟩ : a = x ∧ b = y := by
            exact ⟨congrArg Prod.fst heq, congrArg Prod.snd heq⟩
          refine ⟨List.mem_cons_self _ _, List.mem_cons_of_mem _ (List.mem_cons_self _ _),
            hxy, ?_⟩
          intro c hc ⟨hac, hcb⟩
          rcases List.mem_cons.mp hc with rfl | hc'
          · exact absurd hac (lt_irrefl _)
          rcases List.mem_cons.mp hc' with rfl | hc''
          · exact absurd hcb (lt_irrefl _)
          · exact absurd hcb (not_lt.mpr (le_of_lt (List.rel_of_sorted_cons hs' c hc'')))
        · obtain ⟨ha, hb, hab, hgap⟩ := ih.mp htail
          refine ⟨List.mem_cons_of_mem _ ha, List.mem_cons_of_mem _ hb, hab, ?_⟩
          intro c hc ⟨hac, hcb⟩
          rcases List.mem_cons.mp hc with rfl | hc'
          · exact absurd hac (not_lt.mpr (le_of_lt (List.rel_of_sorted_cons hs a ha)))
          · exact hgap c hc' ⟨hac, hcb⟩
      · rintro ⟨ha, hb, hab, hgap⟩
        rcases List.mem_cons.mp ha with rfl | ha'
        · rcases List.mem_cons.mp hb with rfl | hb'
          · exact absurd hab (lt_irrefl _)
          rcases List.mem_cons.mp hb' with rfl | hb''
          · exact List.mem_cons_self _ _
          · exact absurd (hgap y (List.mem_cons_of_mem _ (List.mem_cons_self _ _))
              ⟨hxy, List.rel_of_sorted_cons hs' b hb''⟩) not_false
        · rcases List.mem_cons.mp hb with rfl | hb'
          · exact absurd hab (not_lt.mpr (le_of_lt (List.rel_of_sorted_cons hs a ha')))
          · exact List.mem_cons_of_mem _
              (ih.mpr ⟨ha', hb', hab, fun c hc => hgap c (List.mem_cons_of_mem _ hc)⟩)

theorem getD_false_lt_length {col : List Bool} {i : Nat}
    (h : col.getD i false = true) : i < col.length := by
  by_contra hge
  rw [List.getD_eq_default _ _ (not_lt.mp hge)] at h
  exact Bool.false_ne_true h

/-- Membership characterisation for one column's segments: `(e, s, t)` is
emitted iff `e` is this column's environment, markers sit at `s` and `t+1`,
no marker sits strictly between them, and the span has length `> 1`. -/
theorem segmentsOfCol_mem_iff (env : Nat) (col : List Bool) (e s t : Nat) :
    (e, s, t) ∈ segmentsOfCol env col ↔
      e = env ∧ col.getD s false = true ∧ col.getD (t + 1) false = true ∧
        s < t ∧ ∀ j, s < j → j < t + 1 → col.getD j false = false := by
  simp only [segmentsOfCol, List.mem_filterMap]
  constructor
  · rintro ⟨⟨p, q⟩, hpq, hf⟩
    have hchar := (consecPairs_mem_iff (env_steps_sorted col) p q).mp hpq
    obtain ⟨hp, hq, hpq', hgap⟩ := hchar
    by_cases hlen : q - p > 1
    · rw [if_pos hlen] at hf
      have hf' : (env, p, q - 1) = (e, s, t) := Option.some.inj hf
      obtain ⟨he, hs, ht⟩ : env = e ∧ p = s ∧ q - 1 = t :=
        ⟨congrArg (fun x => x.1) hf', congrArg (fun x => x.2.1) hf',
          congrArg (fun x => x.2.2) hf'⟩
      subst he; subst hs; subst ht
      have hq1 : q = (q - 1) + 1 := by omega
      refine ⟨rfl, (mem_env_steps.mp hp).2, ?_, by omega, ?_⟩
      · rw [← hq1]; exact (mem_env_steps.mp hq).2
      · intro j hpj hjq
        cases hcase : col.getD j false
        · rfl
        · have hjlen : j < col.length := getD_false_lt_length hcase
          exact absurd ⟨hpj, by omega⟩ (hgap j (mem_env_steps.mpr ⟨hjlen, hcase⟩))
    · rw [if_neg hlen] at hf
      exact absurd hf (Option.some_ne_none _).symm
  · rintro ⟨rfl, hs, ht, hst, hgap⟩
    refine ⟨(s, t + 1), ?_, ?_⟩
    · refine (consecPairs_mem_iff (env_steps_sorted col) s (t + 1)).mpr
        ⟨mem_env_steps.mpr ⟨getD_false_lt_length hs, hs⟩,
         mem_env_steps.mpr ⟨getD_false_lt_length ht, ht⟩, by omega, ?_⟩
      intro c hc ⟨hsc, hct⟩
      have := (mem_env_steps.mp hc).2
      rw [hgap c hsc hct] at this
      exact Bool.false_ne_true this
    · rw [if_pos (by omega)]
      simp

/-- Membership characterisation for the whole segmenter. -/
theorem episodes_start_end_mem_iff (firsts_trajs : List (List Bool))
    (n_envs e s t : Nat) :
    (e, s, t) ∈ episodes_start_end firsts_trajs n_envs ↔
      e < n_envs ∧ (colOf firsts_trajs e).getD s false = true ∧
        (colOf firsts_trajs e).getD (t + 1) false = true ∧ s < t ∧
        ∀ j, s < j → j < t + 1 → (colOf firsts_trajs e).getD j false = false := by
  simp only [episodes_start_end, List.mem_flatMap, List.mem_range]
  constructor
  · rintro ⟨e', he', hmem⟩
    have := (segmentsOfCol_mem_iff e' (colOf firsts_trajs e') e s t).mp hmem
    obtain ⟨rfl, h1, h2, h3, h4⟩ := this
    exact ⟨he', h1, h2, h3, h4⟩
  · rintro ⟨he, h1, h2, h3, h4⟩
    exact ⟨e, he, (segmentsOfCol_mem_iff e _ e s t).mpr ⟨rfl, h1, h2, h3, h4⟩⟩

/-- C2: for every boundary-indicator matrix, the segmenter emits, for each
environment column independently and for each consecutive pair
`(start, next_start)` of marker indices with `next_start - start > 1`,
exactly the segment `(env, start, next_start - 1)` and nothing else; on the
single-environment boundary vector `[1,0,0,1,1,0,1]` it emits `(0,0,2)` and
`(0,4,5)` and excludes the degenerate `(0,3,3)`. -/
theorem claim_C2_segmenter :
    (∀ (firsts_trajs : List (List Bool)) (n_envs e s t : Nat),
        (e, s, t) ∈ episodes_start_end firsts_trajs n_envs ↔
          e < n_envs ∧ (colOf firsts_trajs e).getD s false = true ∧
            (colOf firsts_trajs e).getD (t + 1) false = true ∧ s < t ∧
            ∀ j, s < j → j < t + 1 →
              (colOf firsts_trajs e).getD j false = false) ∧
      episodes_start_end
          [[true], [false], [false], [true], [true], [false], [true]] 1 =
          [(0, 0, 2), (0, 4, 5)] ∧
      (0, 3, 3) ∉ episodes_start_end
          [[true], [false], [false], [true], [true], [false], [true]] 1 :=
  ⟨episodes_start_end_mem_iff, by decide, by decide⟩

/-- Witness for C2: the characterisation proves the concrete membership of
`(0, 0, 2)` for the boundary vector `[1,0,0,1,1,0,1]`. -/
theorem claim_C2_segmenter_witness :
    (0, 0, 2) ∈ episodes_start_end
        [[true], [false], [false], [true], [true], [false], [true]] 1 :=
  (claim_C2_segmenter.1
      [[true], [false], [false], [true], [true], [false], [true]] 1 0 0 2).mpr
    ⟨by decide, by decide, by decide, by decide,
      by intro j h1 h2; interval_cases j <;> rfl⟩

/-! ### Return computer (lines 150-163) -/

section ReturnComputer

variable {α : Type} [CommRing α]

/-- Lines 150-159: `[gamma**t * r for t, r in zip(range(end-start+1), rewards)]`
for one segment's reward sequence. -/
def discountedRewards (gamma : α) (rs : List α) : List α :=
  rs.enum.map (fun p => gamma ^ p.1 * p.2)

/-- Model of `np.cumsum` with an explicit running accumulator. -/
def cumsumFrom (acc : α) : List α → List α
  | [] => []
  | x :: xs => (acc + x) :: cumsumFrom (acc + x) xs

/-- Model of `np.cumsum`. -/
def cumsum (xs : List α) : List α := cumsumFrom 0 xs

/-- Line 161: `np.cumsum(y[::-1])[::-1]`, the reverse cumulative sum. -/
def revCumsum (xs : List α) : List α := (cumsum xs.reverse).reverse

/-- Lines 150-162 composed for one segment: discount, then reverse-cumsum. -/
def segmentReturns (gamma : α) (rs : List α) : List α :=
  revCumsum (discountedRewards gamma rs)

/-- Line 163: `np.concatenate(returns_trajs_split)` — the per-segment return
sequences (each computed independently) concatenated into one flat vector. -/
def returns_trajs_split (gamma : α) (reward_segments : List (List α)) : List α :=
  (reward_segments.map (segmentReturns gamma)).flatten

theorem cumsumFrom_length (acc : α) :
    ∀ xs : List α, (cumsumFrom acc xs).length = xs.length := by
  intro xs
  induction xs generalizing acc with
  | nil => rfl
  | cons x xs ih => simp [cumsumFrom, ih]

theorem revCumsum_length (xs : List α) : (revCumsum xs).length = xs.length := by
  simp [revCumsum, cumsum, cumsumFrom_length]

theorem discountedRewards_length (gamma : α) (rs : List α) :
    (discountedRewards gamma rs).length = rs.length := by
  simp [discountedRewards]

theorem segmentReturns_length (gamma : α) (rs : List α) :
    (segmentReturns gamma rs).length = rs.length := by
  simp [segmentReturns, revCumsum_length, discountedRewards_length]

theorem cumsumFrom_append (x : α) :
    ∀ (xs : List α) (acc : α),
      cumsumFrom acc (xs ++ [x]) = cumsumFrom acc xs ++ [acc + xs.sum + x] := by
  intro xs
  induction xs with
  | nil => intro acc; simp [cumsumFrom]
  | cons y ys ih =>
      intro acc
      simp only [List.cons_append, cumsumFrom, List.sum_cons, List.append_eq]
      have harr : acc + y + ys.sum + x = acc + (y + ys.sum) + x := by ring
      rw [ih, harr]

theorem revCumsum_cons (x : α) (xs : List α) :
    revCumsum (x :: xs) = (x + xs.sum) :: revCumsum xs := by
  simp only [revCumsum, cumsum, List.reverse_cons, cumsumFrom_append,
    List.reverse_append, List.sum_reverse]
  simp [add_comm]

/-- Each entry of the reverse cumulative sum is the sum of the tail from
that index on. -/
theorem revCumsum_getD :
    ∀ (xs : List α) (i : Nat), i < xs.length →
      (revCumsum xs).getD i 0 = (xs.drop i).sum := by
  intro xs
  induction xs with
  | nil => intro i hi; exact absurd hi (Nat.not_lt_zero i)
  | cons x xs ih =>
      intro i hi
      cases i with
      | zero => simp [revCumsum_cons]
      | succ i =>
          rw [revCumsum_cons]
          simp only [List.getD_cons_succ, List.drop_succ_cons]
          exact ih i (Nat.lt_of_succ_lt_succ hi)

theorem discountedRewards_getD (gamma : α) (rs : List α) (i : Nat)
    (hi : i < rs.length) :
    (discountedRewards gamma rs).getD i 0 = gamma ^ i * rs.getD i 0 := by
  have hlen : i < (discountedRewards gamma rs).length := by
    rwa [discountedRewards_length]
  rw [List.getD_eq_getElem _ _ hlen, List.getD_eq_getElem _ _ hi]
  simp [discountedRewards]

end ReturnComputer

/-- C3: for every segment reward sequence and discount, the return computer
produces `discounted_i = gamma^i * r_i` and `return_i = Σ_{j ≥ i} discounted_j`
(the reverse cumulative sum), per segment independently; for rewards
`[1,1,1]` and `gamma = 1/2` the discounted sequence is `[1, 1/2, 1/4]` and
the returns are `[7/4, 3/4, 1/4]`. -/
theorem claim_C3_returns :
    (∀ (gamma : ℚ) (rs : List ℚ) (i : Nat), i < rs.length →
        (discountedRewards gamma rs).getD i 0 = gamma ^ i * rs.getD i 0 ∧
        (segmentReturns gamma rs).getD i 0 =
          ((discountedRewards gamma rs).drop i).sum) ∧
      (∀ (gamma : ℚ) (reward_segments : List (List ℚ)),
        returns_trajs_split gamma reward_segments =
          (reward_segments.map fun rs => segmentReturns gamma rs).flatten) ∧
      discountedRewards (1 / 2 : ℚ) [1, 1, 1] = [1, 1 / 2, 1 / 4] ∧
      segmentReturns (1 / 2 : ℚ) [1, 1, 1] = [7 / 4, 3 / 4, 1 / 4] := by
  refine ⟨?_, fun gamma segs => rfl,
    by norm_num [discountedRewards, List.enum, List.enumFrom],
    by norm_num [segmentReturns, revCumsum, cumsum, cumsumFrom,
      discountedRewards, List.enum, List.enumFrom]⟩
  intro gamma rs i hi
  refine ⟨discountedRewards_getD gamma rs i hi, ?_⟩
  exact revCumsum_getD (discountedRewards gamma rs) i
    (by rwa [discountedRewards_length])

/-- Witness for C3 at `gamma = 1/2`, `rs = [1,1,1]`, `i = 1`. -/
theorem claim_C3_returns_witness :
    (1 < ([1, 1, 1] : List ℚ).length) ∧
      (discountedRewards (1 / 2 : ℚ) [1, 1, 1]).getD 1 0 =
        (1 / 2 : ℚ) ^ 1 * ([1, 1, 1] : List ℚ).getD 1 0 ∧
      (segmentReturns (1 / 2 : ℚ) [1, 1, 1]).getD 1 0 =
        ((discountedRewards (1 / 2 : ℚ) [1, 1, 1]).drop 1).sum :=
  ⟨by decide, claim_C3_returns.1 (1 / 2) [1, 1, 1] 1 (by decide)⟩

/-! ### Reward weighter (lines 203-216) -/

/-- Model of `np.mean`. -/
noncomputable def npMean (xs : List ℝ) : ℝ := xs.sum / xs.length

/-- Model of `np.std` squared: the population variance (`ddof = 0`). -/
noncomputable def npVar (xs : List ℝ) : ℝ :=
  (xs.map (fun x => (x - npMean xs) ^ 2)).sum / xs.length

/-- Model of `np.std`: the population standard deviation. -/
noncomputable def npStd (xs : List ℝ) : ℝ := Real.sqrt (npVar xs)

/-- Lines 204-206: `(returns - mean(returns)) / (returns.std() + 1e-3)`. -/
noncomputable def normalizeReturns (xs : List ℝ) : List ℝ :=
  xs.map (fun x => (x - npMean xs) / (npStd xs + 1e-3))

/-- Line 215: `rewards_k_scaled = torch.exp(self.beta * rewards_k)`. -/
noncomputable def rewards_k_scaled (beta : ℝ) (xs : List ℝ) : List ℝ :=
  (normalizeReturns xs).map (fun z => Real.exp (beta * z))

/-- Line 216: `rewards_k_scaled.clamp_(max=self.max_reward_weight)` —
an elementwise upper clamp.  The commented-out line 218 (renormalization to
mean 1) is absent, so this is the final weight vector. -/
noncomputable def clampedWeights (beta max_reward_weight : ℝ) (xs : List ℝ) : List ℝ :=
  (rewards_k_scaled beta xs).map (fun w => min w max_reward_weight)

theorem normalizeReturns_getD (xs : List ℝ) (i : Nat) (hi : i < xs.length) :
    (normalizeReturns xs).getD i 0 =
      (xs.getD i 0 - npMean xs) / (npStd xs + 1e-3) := by
  have hlen : i < (normalizeReturns xs).length := by simp [normalizeReturns, hi]
  rw [List.getD_eq_getElem _ _ hlen, List.getD_eq_getElem _ _ hi]
  simp [normalizeReturns]

theorem clampedWeights_getD (beta maxw : ℝ) (xs : List ℝ) (i : Nat)
    (hi : i < xs.length) :
    (clampedWeights beta maxw xs).getD i 0 =
      min (Real.exp (beta * ((xs.getD i 0 - npMean xs) / (npStd xs + 1e-3))))
        maxw := by
  have h1 : i < (clampedWeights beta maxw xs).length := by
    simp [clampedWeights, rewards_k_scaled, normalizeReturns, hi]
  have h2 : i < (rewards_k_scaled beta xs).length := by
    simp [rewards_k_scaled, normalizeReturns, hi]
  have h3 : i < (normalizeReturns xs).length := by simp [normalizeReturns, hi]
  rw [List.getD_eq_getElem _ _ h1]
  simp only [clampedWeights, List.getElem_map, rewards_k_scaled]
  rw [← List.getD_eq_getElem _ 0 h3, normalizeReturns_getD xs i hi]

/-- The normalization denominator is strictly positive: `np.std ≥ 0` and the
additive epsilon is positive. -/
theorem npStd_epsilon_pos (xs : List ℝ) : 0 < npStd xs + 1e-3 := by
  have h1 : 0 ≤ npStd xs := Real.sqrt_nonneg _
  have h2 : (0 : ℝ) < 1e-3 := by norm_num
  linarith

/-- C4: the per-transition training weights equal `exp(beta * z)` clamped
elementwise to the configured maximum, where `z` is the concatenated return
vector normalized as `(returns - mean) / (std + 1e-3)` with the population
statistics of the whole flat vector; no further renormalization is applied,
so this value is the final weight. -/
theorem claim_C4_weights (beta maxw gamma : ℝ)
    (reward_segments : List (List ℝ)) (i : Nat)
    (hi : i < (returns_trajs_split gamma reward_segments).length) :
    (clampedWeights beta maxw (returns_trajs_split gamma reward_segments)).getD
        i 0 =
      min
        (Real.exp (beta *
          (((returns_trajs_split gamma reward_segments).getD i 0 -
              npMean (returns_trajs_split gamma reward_segments)) /
            (npStd (returns_trajs_split gamma reward_segments) + 1e-3))))
        maxw :=
  clampedWeights_getD beta maxw _ i hi

/-- Witness for C4 at `beta = 1`, `maxw = 1`, `gamma = 1`, one segment `[0]`,
index `0`. -/
theorem claim_C4_weights_witness :
    (0 < (returns_trajs_split (1 : ℝ) [[0]]).length) ∧
      (clampedWeights 1 1 (returns_trajs_split (1 : ℝ) [[0]])).getD 0 0 =
        min
          (Real.exp (1 *
            (((returns_trajs_split (1 : ℝ) [[0]]).getD 0 0 -
                npMean (returns_trajs_split (1 : ℝ) [[0]])) /
              (npStd (returns_trajs_split (1 : ℝ) [[0]]) + 1e-3)))) 1 :=
  ⟨by simp [returns_trajs_split, segmentReturns_length],
    claim_C4_weights 1 1 1 [[0]] 0
      (by simp [returns_trajs_split, segmentReturns_length])⟩

/-- C5: weight computation never divides by zero (the denominator
`std + 1e-3` is strictly positive, even for the zero-variance vector
`[0,0,0]`), every weight is bounded by the configured maximum (and strictly
positive when the maximum is), and a return whose scaled normalized value
reaches `log maxw` produces exactly the maximum weight, never more. -/
theorem claim_C5_weight_safety (beta maxw : ℝ) (xs : List ℝ) :
    0 < npStd xs + 1e-3 ∧
      (∀ w ∈ clampedWeights beta maxw xs, w ≤ maxw) ∧
      (∀ w ∈ clampedWeights beta maxw xs, 0 < maxw → 0 < w) ∧
      (∀ i, i < xs.length → 0 < maxw →
        Real.log maxw ≤
            beta * ((xs.getD i 0 - npMean xs) / (npStd xs + 1e-3)) →
        (clampedWeights beta maxw xs).getD i 0 = maxw) := by
  refine ⟨npStd_epsilon_pos xs, ?_, ?_, ?_⟩
  · intro w hw
    simp only [clampedWeights, List.mem_map] at hw
    obtain ⟨v, -, rfl⟩ := hw
    exact min_le_right _ _
  · intro w hw hmax
    simp only [clampedWeights, List.mem_map] at hw
    obtain ⟨v, hv, rfl⟩ := hw
    simp only [rewards_k_scaled, List.mem_map] at hv
    obtain ⟨z, -, rfl⟩ := hv
    exact lt_min (Real.exp_pos _) hmax
  · intro i hi hmax hfar
    rw [clampedWeights_getD beta maxw xs i hi]
    refine min_eq_right ?_
    calc maxw = Real.exp (Real.log maxw) := (Real.exp_log hmax).symm
      _ ≤ Real.exp (beta * ((xs.getD i 0 - npMean xs) / (npStd xs + 1e-3))) :=
          Real.exp_le_exp.mpr hfar

/-- Witness for C5 on the zero-variance vector `[0,0,0]` with `beta = 1`,
`maxw = 1`: the denominator is positive, all weights are bounded by 1, and
index 0 attains the maximum exactly. -/
theorem claim_C5_weight_safety_witness :
    (0 < npStd [(0 : ℝ), 0, 0] + 1e-3) ∧
      (∀ w ∈ clampedWeights 1 1 [(0 : ℝ), 0, 0], w ≤ 1) ∧
      (clampedWeights 1 1 [(0 : ℝ), 0, 0]).getD 0 0 = 1 := by
  obtain ⟨h1, h2, -, h4⟩ := claim_C5_weight_safety 1 1 [(0 : ℝ), 0, 0]
  refine ⟨h1, h2, h4 0 (by norm_num) (by norm_num) ?_⟩
  have hmean : npMean [(0 : ℝ), 0, 0] = 0 := by
    simp [npMean]
  simp [hmean, Real.log_one]

/-! ### Minibatch loop (lines 221-234) -/

/-- Line 227: `num_batch = max(1, total_steps // self.batch_size)`. -/
def num_batch (total_steps batch_size : Nat) : Nat :=
  max 1 (total_steps / batch_size)

/-- Lines 229-231: the slice `inds_k[start:end]` with
`start = batch * batch_size` and `end = start + batch_size`. -/
def batchInds (inds_k : List Nat) (batch_size b : Nat) : List Nat :=
  (inds_k.drop (b * batch_size)).take batch_size

/-- Lines 228-231: the minibatches traversed by
`for batch in range(num_batch)`, in order. -/
def epochBatches (inds_k : List Nat) (batch_size : Nat) : List (List Nat) :=
  (List.range (num_batch inds_k.length batch_size)).map
    (batchInds inds_k batch_size)

/-- C6 is refuted as stated: when the shuffled index list is shorter than the
batch size, the single minibatch that runs is a strict slice, not a full
batch of size `batch_size`.  Concretely, with 3 transitions and
`batch_size = 4`, one batch of size 3 runs. -/
theorem claim_C6_counterexample :
    ¬ (∀ (inds_k : List Nat) (batch_size b : Nat),
        b < num_batch inds_k.length batch_size →
        (batchInds inds_k batch_size b).length = batch_size) := by
  intro h
  have h3 := h [0, 1, 2] 4 0 (by decide)
  exact absurd h3 (by decide)

/-- C6 (amended): in every update epoch, exactly
`max(1, total_steps // batch_size)` minibatches run; each has size
`min batch_size total_steps` — a full batch of size `batch_size` whenever
`total_steps ≥ batch_size`, otherwise a single batch holding all
`total_steps` indices.  For `total_steps = 10` and `batch_size = 4`, exactly
2 batches of size 4 run per epoch and the remaining 2 shuffled indices are
dropped. -/
theorem claim_C6_minibatches (inds_k : List Nat) (batch_size : Nat)
    (hB : 0 < batch_size) :
    (epochBatches inds_k batch_size).length =
        num_batch inds_k.length batch_size ∧
      (∀ b, b < num_batch inds_k.length batch_size →
        (batchInds inds_k batch_size b).length =
          min batch_size inds_k.length) ∧
      num_batch 10 4 = 2 ∧
      (∀ b, b < 2 → (batchInds (List.range 10) 4 b).length = 4) ∧
      ((epochBatches (List.range 10) 4).flatten).length = 8 := by
  refine ⟨by simp [epochBatches], ?_, by decide, by decide, by decide⟩
  intro b hb
  have hlen : (batchInds inds_k batch_size b).length =
      min batch_size (inds_k.length - b * batch_size) := by
    simp [batchInds]
  rw [hlen]
  rcases lt_or_ge inds_k.length batch_size with hc | hc
  · have hdiv : inds_k.length / batch_size = 0 := Nat.div_eq_of_lt hc
    have hb0 : b = 0 := by
      simp only [num_batch, hdiv] at hb
      omega
    subst hb0
    simp only [Nat.zero_mul, Nat.sub_zero]
  · have h1 : 1 ≤ inds_k.length / batch_size :=
      (Nat.one_le_div_iff hB).mpr hc
    have hbn : b < inds_k.length / batch_size := by
      simpa [num_batch, Nat.max_eq_right h1] using hb
    have h2 : (b + 1) * batch_size ≤
        inds_k.length / batch_size * batch_size :=
      Nat.mul_le_mul_right _ (Nat.succ_le_of_lt hbn)
    have h3 : inds_k.length / batch_size * batch_size ≤ inds_k.length :=
      Nat.div_mul_le_self _ _
    have h4 : b * batch_size + batch_size ≤ inds_k.length := by
      have : b * batch_size + batch_size = (b + 1) * batch_size := by ring
      omega
    omega

/-- Witness for C6 (amended) at 10 transitions, `batch_size = 4`. -/
theorem claim_C6_minibatches_witness :
    (epochBatches (List.range 10) 4).length =
        num_batch (List.range 10).length 4 ∧
      (batchInds (List.range 10) 4 1).length = min 4 (List.range 10).length ∧
      num_batch 10 4 = 2 := by
  obtain ⟨h1, h2, h3, -, -⟩ := claim_C6_minibatches (List.range 10) 4
    (by norm_num)
  exact ⟨h1, h2 1 (by decide), h3⟩

/-! ### Rollout collection step (lines 112-119) -/

/-- Effect of one collection step on the samples buffer and on the action
passed to the environment. -/
structure StepEffect (α : Type) where
  samples_trajs : List (List (List α))
  action_venv : List (List α)

/-- Lines 112-119: `action_venv = samples[:, :self.act_steps]` (line 112) is
what `self.venv.step` receives (line 117), while line 114 records the full
chunk: `samples_trajs = np.vstack((samples_trajs, samples[None]))`. -/
def collectStep {α : Type} (samples_trajs : List (List (List α)))
    (samples : List (List α)) (act_steps : Nat) : StepEffect α :=
  { samples_trajs := samples_trajs ++ [samples]
    action_venv := samples.map (fun row => row.take act_steps) }

/-- C8: at every collection step the full sampled action chunk (length
`horizon_steps` per environment) is appended to the samples buffer as the
training target, while only its leading prefix of length `act_steps` is
passed to the environment's step call. -/
theorem claim_C8_collect {α : Type} (samples_trajs : List (List (List α)))
    (samples : List (List α)) (act_steps horizon_steps : Nat)
    (hrow : ∀ row ∈ samples, row.length = horizon_steps)
    (ha : act_steps ≤ horizon_steps) :
    (collectStep samples_trajs samples act_steps).samples_trajs =
        samples_trajs ++ [samples] ∧
      (collectStep samples_trajs samples act_steps).samples_trajs.getLast? =
        some samples ∧
      (∀ row ∈ (collectStep samples_trajs samples act_steps).samples_trajs.getLast?.getD
          [], row.length = horizon_steps) ∧
      (collectStep samples_trajs samples act_steps).action_venv =
        samples.map (fun row => row.take act_steps) ∧
      (∀ row ∈ (collectStep samples_trajs samples act_steps).action_venv,
        row.length = act_steps) := by
  refine ⟨rfl, by simp [collectStep], ?_, rfl, ?_⟩
  · intro row hr
    have : (collectStep samples_trajs samples act_steps).samples_trajs.getLast?.getD
        [] = samples := by simp [collectStep]
    rw [this] at hr
    exact hrow row hr
  · intro row hr
    simp only [collectStep, List.mem_map] at hr
    obtain ⟨r, hrs, rfl⟩ := hr
    rw [List.length_take, hrow r hrs]
    exact Nat.min_eq_left ha

/-- Witness for C8 with two environments, horizon 2, `act_steps = 1`. -/
theorem claim_C8_collect_witness :
    (collectStep ([] : List (List (List ℚ))) [[0, 1], [2, 3]] 1).samples_trajs =
        [] ++ [[[0, 1], [2, 3]]] ∧
      (∀ row ∈ (collectStep ([] : List (List (List ℚ)))
          [[0, 1], [2, 3]] 1).action_venv, row.length = 1) := by
  obtain ⟨h1, -, -, -, h5⟩ :=
    claim_C8_collect ([] : List (List (List ℚ))) [[0, 1], [2, 3]] 1 2
      (by intro row hr; fin_cases hr <;> rfl) (by norm_num)
  exact ⟨h1, h5⟩

/-! ### Orchestrator control flow (lines 57-81, 124-248, 258-300)

Python locals that may be read before any assignment (`last_itr_eval`,
`prev_obs_venv`, `obs_trajs_split`, `samples_trajs_split`,
`returns_trajs_split`) are modelled as `Option`-valued: `none` is the
unbound state, and reading `none` is Python's `NameError` /
`UnboundLocalError`. -/

/-- Line 69: `eval_mode = self.itr % self.val_freq == 0 and not self.force_train`. -/
def eval_mode (itr val_freq : Nat) (force_train : Bool) : Bool :=
  (itr % val_freq == 0) && !force_train

/-- Line 74: the condition `self.reset_at_iteration or eval_mode or
last_itr_eval`, evaluated left to right with Python short-circuiting; the
local `last_itr_eval` is first assigned only at line 81, so on the first
iteration reading it yields `none`. -/
def resetCondition (reset_at_iteration evalMode : Bool)
    (last_itr_eval : Option Bool) : Option Bool :=
  if reset_at_iteration then some true
  else if evalMode then some true
  else last_itr_eval

/-- State of the iteration after the segment phase (lines 133-184). -/
structure SegmentSummary where
  trajs_split : Option (List ℚ)
  num_episode_finished : Nat
  avg_episode_reward : ℚ
  warned : Bool

/-- Lines 133-184: when segments exist, the split locals are (re)bound and
metrics are computed (`avgReward` stands for the computed mean); otherwise
the locals keep whatever binding they had (`prior`, `none` if never bound),
metrics fall back to zero, and the warning of line 184 is logged. -/
def segmentPhase (prior : Option (List ℚ)) (segs : List (Nat × Nat × Nat))
    (split : List ℚ) (avgReward : ℚ) : SegmentSummary :=
  if 0 < segs.length then
    { trajs_split := some split
      num_episode_finished := segs.length
      avg_episode_reward := avgReward
      warned := false }
  else
    { trajs_split := prior
      num_episode_finished := 0
      avg_episode_reward := 0
      warned := true }

/-- Lines 187-248: the update block runs whenever `not eval_mode` — with no
guard on the segment count.  Inside, line 192 reads `obs_trajs_split`; if
that local was never bound the block fails with a `NameError`.  On success
the payload is the number of `model.loss` / `optimizer.step` invocations:
`update_epochs * num_batch`. -/
def updatePhase (evalMode : Bool) (trajs_split : Option (List ℚ))
    (update_epochs batch_size : Nat) : Except String Nat :=
  if evalMode then Except.ok 0
  else
    match trajs_split with
    | none => Except.error "NameError: obs_trajs_split is not defined"
    | some split =>
        Except.ok (update_epochs * num_batch split.length batch_size)

/-- Lines 124-248 composed: segment phase, then the update gate. -/
def postRollout (evalMode : Bool) (prior : Option (List ℚ))
    (segs : List (Nat × Nat × Nat)) (split : List ℚ) (avgReward : ℚ)
    (update_epochs batch_size : Nat) :
    Except String (SegmentSummary × Nat) :=
  let ss := segmentPhase prior segs split avgReward
  match updatePhase evalMode ss.trajs_split update_epochs batch_size with
  | Except.error e => Except.error e
  | Except.ok n => Except.ok (ss, n)

/-- C1 is right about the intent but the code violates it: in a
training-mode iteration with zero segments the warning is logged and the
metrics are zeroed (lines 178-184), but the update block is not skipped —
it runs and reads the never-bound `obs_trajs_split`, so the first such
iteration aborts with a `NameError` instead of continuing; and if a stale
binding from an earlier iteration exists, gradient updates run on that
stale data rather than being skipped. -/
theorem claim_C1_zero_segment_update (split : List ℚ) (avgReward : ℚ)
    (update_epochs batch_size : Nat) :
    (segmentPhase none [] split avgReward).warned = true ∧
      (segmentPhase none [] split avgReward).avg_episode_reward = 0 ∧
      (segmentPhase none [] split avgReward).num_episode_finished = 0 ∧
      postRollout false none [] split avgReward update_epochs batch_size =
        Except.error "NameError: obs_trajs_split is not defined" ∧
      (∀ stale : List ℚ,
        updatePhase false (some stale) (update_epochs + 1) batch_size =
          Except.ok ((update_epochs + 1) *
            num_batch stale.length batch_size) ∧
        (update_epochs + 1) * num_batch stale.length batch_size ≠ 0) := by
  refine ⟨rfl, rfl, rfl, rfl, ?_⟩
  intro stale
  refine ⟨rfl, ?_⟩
  have h1 : 1 ≤ num_batch stale.length batch_size := le_max_left _ _
  positivity

/-- Witness for C1 at concrete inputs: the warning fires and the iteration
aborts with the `NameError` instead of skipping the update. -/
theorem claim_C1_zero_segment_update_witness :
    (segmentPhase none [] [] 0).warned = true ∧
      postRollout false none [] [] 0 1 1 =
        Except.error "NameError: obs_trajs_split is not defined" := by
  obtain ⟨h1, -, -, h4, -⟩ := claim_C1_zero_segment_update [] 0 1 1
  exact ⟨h1, h4⟩

/-- C7: an iteration is in evaluation mode exactly when
`itr % val_freq == 0` and the force-train override is unset; in an
evaluation-mode iteration the update block performs zero loss/gradient
calls, whatever the segment phase produced. -/
theorem claim_C7_eval_mode :
    (∀ (itr val_freq : Nat) (force_train : Bool),
        eval_mode itr val_freq force_train = true ↔
          itr % val_freq = 0 ∧ force_train = false) ∧
      (∀ (trajs_split : Option (List ℚ)) (update_epochs batch_size : Nat),
        updatePhase true trajs_split update_epochs batch_size =
          Except.ok 0) ∧
      (∀ (prior : Option (List ℚ)) (segs : List (Nat × Nat × Nat))
          (split : List ℚ) (avgReward : ℚ) (ue bs : Nat),
        postRollout true prior segs split avgReward ue bs =
          Except.ok (segmentPhase prior segs split avgReward, 0)) := by
  refine ⟨?_, fun trajs ue bs => rfl, fun prior segs split avg ue bs => rfl⟩
  intro itr val_freq force_train
  simp [eval_mode, Bool.and_eq_true, Bool.not_eq_true']

/-- Witness for C7: iteration 0 with `val_freq = 5` and no force-train is in
evaluation mode, and evaluation mode performs zero update calls. -/
theorem claim_C7_eval_mode_witness :
    eval_mode 0 5 false = true ∧
      updatePhase true none 3 4 = Except.ok 0 := by
  obtain ⟨h1, h2, -⟩ := claim_C7_eval_mode
  exact ⟨(h1 0 5 false).mpr ⟨by norm_num, rfl⟩, h2 none 3 4⟩

/-- C10: on the very first loop iteration, with the force-train override set
and reset-at-iteration unset, the reset condition reads the unbound local
`last_itr_eval` and the run fails (`none`); and a full reset — forced by
`reset_at_iteration` or by evaluation mode — is the only first-iteration
path that proceeds (there is no non-reset first-iteration outcome). -/
theorem claim_C10_uninitialized_local :
    (∀ itr val_freq : Nat,
        resetCondition false (eval_mode itr val_freq true) none = none) ∧
      (∀ r e : Bool,
        (resetCondition r e none).isSome ↔ (r = true ∨ e = true)) ∧
      (∀ r e : Bool,
        resetCondition r e none = some true ∨ resetCondition r e none = none) := by
  refine ⟨?_, ?_, ?_⟩
  · intro itr val_freq
    simp [resetCondition, eval_mode]
  · intro r e
    cases r <;> cases e <;> simp [resetCondition]
  · intro r e
    cases r <;> cases e <;> simp [resetCondition]

/-- Witness for C10: first iteration with force-train and no
reset-at-iteration reads the unbound local (`none`); a configured reset
initializes it. -/
theorem claim_C10_uninitialized_local_witness :
    resetCondition false (eval_mode 0 5 true) none = none ∧
      (resetCondition true false none).isSome := by
  obtain ⟨h1, h2, -⟩ := claim_C10_uninitialized_local
  exact ⟨h1 0 5, (h2 true false).mpr (Or.inl rfl)⟩

/-! ### Metrics logging and persistence (lines 258-300) -/

/-- One entry of `run_results`: always the iteration index (line 260);
mode-specific metrics and the elapsed time are present only when the entry
was extended inside the `log_freq` branch (lines 279-281, 296-298). -/
structure RunRecord where
  itr : Nat
  evalMetrics : Option (ℚ × ℚ × ℚ)
  trainMetrics : Option (ℚ × ℚ)
  time : Option ℚ
deriving DecidableEq

/-- Lines 258-300: append `{"itr": itr}` unconditionally (line 258); on
`itr % log_freq == 0`, extend the last record with mode-specific metrics and
the elapsed time and rewrite the results file from scratch with the full
list (lines 263-300).  The second component is the file write: `some`
carries the full content written, `none` means no write this iteration. -/
def logPhase (run_results : List RunRecord) (itr log_freq : Nat)
    (evalMode : Bool) (em : ℚ × ℚ × ℚ) (tm : ℚ × ℚ) (t : ℚ) :
    List RunRecord × Option (List RunRecord) :=
  let appended := run_results ++ [⟨itr, none, none, none⟩]
  if itr % log_freq == 0 then
    let extended : RunRecord :=
      if evalMode then ⟨itr, some em, none, some t⟩
      else ⟨itr, none, some tm, some t⟩
    let updated := appended.dropLast ++ [extended]
    (updated, some updated)
  else (appended, none)

theorem logPhase_eq (run_results : List RunRecord) (itr log_freq : Nat)
    (evalMode : Bool) (em : ℚ × ℚ × ℚ) (tm : ℚ × ℚ) (t : ℚ) :
    logPhase run_results itr log_freq evalMode em tm t =
      if itr % log_freq == 0 then
        (run_results ++
            [if evalMode then ⟨itr, some em, none, some t⟩
              else ⟨itr, none, some tm, some t⟩],
          some (run_results ++
            [if evalMode then ⟨itr, some em, none, some t⟩
              else ⟨itr, none, some tm, some t⟩]))
      else (run_results ++ [⟨itr, none, none, none⟩], none) := by
  simp only [logPhase]
  by_cases h : itr % log_freq == 0
  · rw [if_pos h, if_pos h, List.dropLast_concat]
  · rw [if_neg h, if_neg h]

/-- C9 is refuted as stated: a record is appended to `run_results` on every
iteration (line 258), not only on iterations divisible by the logging
frequency — at `itr = 1`, `log_freq = 2` the in-memory list still grows. -/
theorem claim_C9_counterexample :
    ¬ (∀ (run_results : List RunRecord) (itr log_freq : Nat)
          (evalMode : Bool) (em : ℚ × ℚ × ℚ) (tm : ℚ × ℚ) (t : ℚ),
        itr % log_freq ≠ 0 →
        (logPhase run_results itr log_freq evalMode em tm t).1 =
          run_results) := by
  intro h
  have h1 := h [] 1 2 false (0, 0, 0) (0, 0) 0 (by decide)
  have h2 : (logPhase [] 1 2 false (0, 0, 0) (0, 0) 0).1 =
      [⟨1, none, none, none⟩] := by
    rw [logPhase_eq]
    rfl
  rw [h2] at h1
  exact absurd h1 (by simp)

/-- C9 (amended): a record carrying the iteration index is appended to the
in-memory list on every iteration; on iterations divisible by the logging
frequency — and only on those — that record is extended with mode-specific
metrics and the elapsed time, and the results file is rewritten from
scratch with the full list, so the complete history is recoverable from the
latest write. -/
theorem claim_C9_logging (run_results : List RunRecord) (itr log_freq : Nat)
    (evalMode : Bool) (em : ℚ × ℚ × ℚ) (tm : ℚ × ℚ) (t : ℚ) :
    (logPhase run_results itr log_freq evalMode em tm t).1.length =
        run_results.length + 1 ∧
      (logPhase run_results itr log_freq evalMode em tm t).1.take
          run_results.length = run_results ∧
      ((logPhase run_results itr log_freq evalMode em tm t).1.getLast?.map
          RunRecord.itr) = some itr ∧
      (itr % log_freq = 0 ↔
        (logPhase run_results itr log_freq evalMode em tm t).2 =
          some (logPhase run_results itr log_freq evalMode em tm t).1) ∧
      (itr % log_freq ≠ 0 →
        (logPhase run_results itr log_freq evalMode em tm t).2 = none ∧
        (logPhase run_results itr log_freq evalMode em tm t).1.getLast?.bind
            RunRecord.time = none) ∧
      (itr % log_freq = 0 →
        (logPhase run_results itr log_freq evalMode em tm t).1.getLast?.bind
            RunRecord.time = some t ∧
        (evalMode = true →
          (logPhase run_results itr log_freq evalMode em tm t).1.getLast?.bind
              RunRecord.evalMetrics = some em) ∧
        (evalMode = false →
          (logPhase run_results itr log_freq evalMode em tm t).1.getLast?.bind
              RunRecord.trainMetrics = some tm)) := by
  rw [logPhase_eq]
  by_cases h : itr % log_freq = 0
  · have hb : (itr % log_freq == 0) = true := by simpa using h
    rw [if_pos hb]
    cases evalMode <;>
      simp [h, List.getLast?_append, List.take_left]
  · have hb : (itr % log_freq == 0) = false := by simpa using h
    rw [if_neg (by simp [hb])]
    simp [h, List.getLast?_append, List.take_left]

/-- Witness for C9 (amended) at `itr = 2`, `log_freq = 2`, train mode. -/
theorem claim_C9_logging_witness :
    ((logPhase [] 2 2 false (0, 0, 0) (1, 2) 3).1.length = 0 + 1) ∧
      ((logPhase [] 2 2 false (0, 0, 0) (1, 2) 3).2 =
        some (logPhase [] 2 2 false (0, 0, 0) (1, 2) 3).1) ∧
      ((logPhase [] 2 2 false (0, 0, 0) (1, 2) 3).1.getLast?.bind
          RunRecord.time = some 3) := by
  obtain ⟨h1, -, -, h4, -, h6⟩ :=
    claim_C9_logging [] 2 2 false (0, 0, 0) (1, 2) 3
  exact ⟨h1, h4.mp (by norm_num), (h6 (by norm_num)).1⟩

end RWR
